import Mathlib

/-!
Verification of the subgraph-dgraph-software-supply-chain ETL core against
its specification.  The extraction-transform-load pipeline (schema
acquisition, two-stage extractor, canonical-identity synthesizer,
graph-exchange serializer, load orchestrator) is specified in the design
documentation; the components below are shallow embeddings of those
operations, together with the environment validation script
(scripts/validate.sh), which is embedded directly from its source.
-/

/- ## Canonical Identity Synthesizer -/

/-- Modelled from the spec: the reserved separator used by the Canonical
Identity Synthesizer when concatenating the type name and the ordered
natural-key values (the design documents use a colon, as in the example
of an Artifact identity built from a type name and a digest).  The
synthesizer source itself is not in the repository. -/
def sepChar : Char := ':'

/-- Modelled from the spec: the escape character used so that the reserved
separator is, as the spec requires, guaranteed not to appear unescaped in
any component. -/
def escChar : Char := '\x5c'

/-- Modelled from the spec: escaping of a single character of a component.
The separator and the escape character themselves are prefixed with the
escape character; every other character is passed through. -/
def escapeChar (c : Char) : List Char :=
  if c = sepChar ∨ c = escChar then [escChar, c] else [c]

/-- Modelled from the spec: escaping of one component (type name or one
key value), character by character. -/
def escapeComp : List Char → List Char
  | [] => []
  | c :: cs => escapeChar c ++ escapeComp cs

/-- Modelled from the spec: concatenation of the escaped components with
the reserved separator between consecutive components. -/
def joinEscaped : List (List Char) → List Char
  | [] => []
  | [x] => escapeComp x
  | x :: y :: xs => escapeComp x ++ sepChar :: joinEscaped (y :: xs)

/-- A character list that is either empty or starts with the (unescaped)
separator: the shapes that can follow an escaped component inside a join. -/
def SepBoundary (l : List Char) : Prop := l = [] ∨ ∃ r, l = sepChar :: r

theorem sep_ne_esc : sepChar ≠ escChar := by decide

theorem escapeComp_append (c : Char) (cs : List Char) :
    escapeComp (c :: cs) = escapeChar c ++ escapeComp cs := rfl

/-- An escaped component followed by a boundary determines both the
component and the boundary: escaping makes the separator a safe delimiter. -/
theorem escape_prefix_eq : ∀ x y a b, SepBoundary a → SepBoundary b →
    escapeComp x ++ a = escapeComp y ++ b → x = y ∧ a = b := by
  intro x
  induction x with
  | nil =>
    intro y a b ha hb h
    cases y with
    | nil =>
      simp [escapeComp] at h
      exact ⟨rfl, h⟩
    | cons d y2 =>
      exfalso
      rw [escapeComp_append] at h
      simp [escapeComp] at h
      by_cases hd : d = sepChar ∨ d = escChar
      · rw [escapeChar, if_pos hd] at h
        rcases ha with ha | ⟨r, ha⟩
        · subst ha; simp at h
        · subst ha; simp at h
          exact sep_ne_esc h.1
      · rw [escapeChar, if_neg hd] at h
        push_neg at hd
        rcases ha with ha | ⟨r, ha⟩
        · subst ha; simp at h
        · subst ha; simp at h
          exact hd.1 h.1.symm
  | cons c x2 ih =>
    intro y a b ha hb h
    cases y with
    | nil =>
      exfalso
      rw [escapeComp_append] at h
      simp [escapeComp] at h
      by_cases hc : c = sepChar ∨ c = escChar
      · rw [escapeChar, if_pos hc] at h
        rcases hb with hb | ⟨r, hb⟩
        · subst hb; simp at h
        · subst hb; simp at h
          exact sep_ne_esc h.1.symm
      · rw [escapeChar, if_neg hc] at h
        push_neg at hc
        rcases hb with hb | ⟨r, hb⟩
        · subst hb; simp at h
        · subst hb; simp at h
          exact hc.1 h.1
    | cons d y2 =>
      rw [escapeComp_append, escapeComp_append] at h
      by_cases hc : c = sepChar ∨ c = escChar
      · by_cases hd : d = sepChar ∨ d = escChar
        · rw [escapeChar, if_pos hc, escapeChar, if_pos hd] at h
          simp at h
          obtain ⟨hcd, htail⟩ := h
          obtain ⟨hx, hab⟩ := ih y2 a b ha hb htail
          subst hcd hx
          exact ⟨rfl, hab⟩
        · exfalso
          rw [escapeChar, if_pos hc, escapeChar, if_neg hd] at h
          push_neg at hd
          simp at h
          exact hd.2 h.1.symm
      · by_cases hd : d = sepChar ∨ d = escChar
        · exfalso
          rw [escapeChar, if_neg hc, escapeChar, if_pos hd] at h
          push_neg at hc
          simp at h
          exact hc.2 h.1
        · rw [escapeChar, if_neg hc, escapeChar, if_neg hd] at h
          simp at h
          obtain ⟨hcd, htail⟩ := h
          obtain ⟨hx, hab⟩ := ih y2 a b ha hb htail
          subst hcd hx
          exact ⟨rfl, hab⟩

/-- On nonempty component lists, the escaped join is injective. -/
theorem joinEscaped_injective : ∀ xs ys, xs ≠ [] → ys ≠ [] →
    joinEscaped xs = joinEscaped ys → xs = ys := by
  intro xs
  induction xs with
  | nil => intro ys hx; exact absurd rfl hx
  | cons x xs2 ih =>
    intro ys _ hy h
    cases ys with
    | nil => exact absurd rfl hy
    | cons y ys2 =>
      cases xs2 with
      | nil =>
        cases ys2 with
        | nil =>
          simp [joinEscaped] at h
          have := escape_prefix_eq x y [] []
            (Or.inl rfl) (Or.inl rfl) (by simpa using h)
          rw [this.1]
        | cons y2 ys3 =>
          exfalso
          simp only [joinEscaped] at h
          have := escape_prefix_eq x y [] (sepChar :: joinEscaped (y2 :: ys3))
            (Or.inl rfl) (Or.inr ⟨_, rfl⟩) (by simpa using h)
          exact List.noConfusion this.2
      | cons x2 xs3 =>
        cases ys2 with
        | nil =>
          exfalso
          simp only [joinEscaped] at h
          have := escape_prefix_eq x y (sepChar :: joinEscaped (x2 :: xs3)) []
            (Or.inr ⟨_, rfl⟩) (Or.inl rfl) (by simpa using h)
          exact List.noConfusion this.2
        | cons y2 ys3 =>
          simp only [joinEscaped] at h
          have hp := escape_prefix_eq x y
            (sepChar :: joinEscaped (x2 :: xs3)) (sepChar :: joinEscaped (y2 :: ys3))
            (Or.inr ⟨_, rfl⟩) (Or.inr ⟨_, rfl⟩) h
          have htail := List.cons.inj hp.2
          have := ih (y2 :: ys3) (by simp) (by simp) htail.2
          rw [hp.1, this]

/-- Modelled from the spec: the byte sequence of one code point under the
reversible text encoding used before the opaque encoding (UTF-8, as used
by the repository's RDF N-Quad text artifacts). -/
def utf8Bytes (n : Nat) : List Nat :=
  if n < 128 then [n]
  else if n < 2048 then [192 + n / 64, 128 + n % 64]
  else if n < 65536 then [224 + n / 4096, 128 + n / 64 % 64, 128 + n % 64]
  else [240 + n / 262144, 128 + n / 4096 % 64, 128 + n / 64 % 64, 128 + n % 64]

/-- Modelled from the spec: the byte stream of a character list under the
reversible text encoding. -/
def utf8Encode : List Char → List Nat
  | [] => []
  | c :: cs => utf8Bytes c.toNat ++ utf8Encode cs

/-- Decoder for one code point of the byte stream, used to show the
encoding is reversible. -/
def utf8DecodeOne : List Nat → Option (Nat × List Nat)
  | [] => none
  | b :: bs =>
    if b < 128 then some (b, bs)
    else if b < 224 then
      match bs with
      | b2 :: r => some ((b - 192) * 64 + (b2 - 128), r)
      | [] => none
    else if b < 240 then
      match bs with
      | b2 :: b3 :: r => some ((b - 224) * 4096 + (b2 - 128) * 64 + (b3 - 128), r)
      | _ => none
    else
      match bs with
      | b2 :: b3 :: b4 :: r =>
        some ((b - 240) * 262144 + (b2 - 128) * 4096 + (b3 - 128) * 64 + (b4 - 128), r)
      | _ => none

theorem char_toNat_lt (c : Char) : c.toNat < 1114112 := by
  have h := c.valid
  rcases h with h | h
  · exact Nat.lt_trans h (by decide)
  · exact h.2

/-- Decoding the bytes of one code point in front of any remainder
recovers the code point and the remainder. -/
theorem utf8DecodeOne_bytes (n : Nat) (hn : n < 1114112) (r : List Nat) :
    utf8DecodeOne (utf8Bytes n ++ r) = some (n, r) := by
  by_cases h1 : n < 128
  · rw [utf8Bytes, if_pos h1]
    simp only [List.cons_append, List.nil_append, utf8DecodeOne, if_pos h1]
  · by_cases h2 : n < 2048
    · rw [utf8Bytes, if_neg h1, if_pos h2]
      simp only [List.cons_append, List.nil_append, utf8DecodeOne]
      rw [if_neg (by omega), if_pos (by omega)]
      have : (192 + n / 64 - 192) * 64 + (128 + n % 64 - 128) = n := by omega
      rw [this]
    · by_cases h3 : n < 65536
      · rw [utf8Bytes, if_neg h1, if_neg h2, if_pos h3]
        simp only [List.cons_append, List.nil_append, utf8DecodeOne]
        rw [if_neg (by omega), if_neg (by omega), if_pos (by omega)]
        have : (224 + n / 4096 - 224) * 4096 + (128 + n / 64 % 64 - 128) * 64
            + (128 + n % 64 - 128) = n := by omega
        rw [this]
      · rw [utf8Bytes, if_neg h1, if_neg h2, if_neg h3]
        simp only [List.cons_append, List.nil_append, utf8DecodeOne]
        rw [if_neg (by omega), if_neg (by omega), if_neg (by omega)]
        have : (240 + n / 262144 - 240) * 262144 + (128 + n / 4096 % 64 - 128) * 4096
            + (128 + n / 64 % 64 - 128) * 64 + (128 + n % 64 - 128) = n := by omega
        rw [this]

theorem char_eq_of_toNat_eq (c d : Char) (h : c.toNat = d.toNat) : c = d := by
  cases c with
  | mk cv cvalid =>
    cases d with
    | mk dv dvalid =>
      have : cv = dv := UInt32.ext h
      subst this
      rfl

/-- The byte-stream encoding of a character list is injective. -/
theorem utf8Encode_injective : ∀ l1 l2 : List Char,
    utf8Encode l1 = utf8Encode l2 → l1 = l2 := by
  intro l1
  induction l1 with
  | nil =>
    intro l2 h
    cases l2 with
    | nil => rfl
    | cons d l3 =>
      exfalso
      simp only [utf8Encode] at h
      have := utf8DecodeOne_bytes d.toNat (char_toNat_lt d) (utf8Encode l3)
      rw [← h] at this
      simp [utf8DecodeOne] at this
  | cons c l1b ih =>
    intro l2 h
    cases l2 with
    | nil =>
      exfalso
      simp only [utf8Encode] at h
      have := utf8DecodeOne_bytes c.toNat (char_toNat_lt c) (utf8Encode l1b)
      rw [h] at this
      simp [utf8DecodeOne] at this
    | cons d l2b =>
      simp only [utf8Encode] at h
      have hc := utf8DecodeOne_bytes c.toNat (char_toNat_lt c) (utf8Encode l1b)
      have hd := utf8DecodeOne_bytes d.toNat (char_toNat_lt d) (utf8Encode l2b)
      rw [h] at hc
      rw [hd] at hc
      have h1 := (Option.some.inj hc)
      have h2 := (Prod.mk.injEq _ _ _ _).mp h1
      rw [char_eq_of_toNat_eq c d h2.1.symm, ih l2b h2.2.symm]

/-- Every byte of the stream encoding is below 256. -/
theorem utf8Encode_lt_256 : ∀ l : List Char, ∀ b ∈ utf8Encode l, b < 256 := by
  intro l
  induction l with
  | nil => intro b hb; simp [utf8Encode] at hb
  | cons c cs ih =>
    intro b hb
    simp only [utf8Encode, List.mem_append] at hb
    rcases hb with hb | hb
    · have hn := char_toNat_lt c
      rw [utf8Bytes] at hb
      split at hb
      · simp at hb; omega
      · split at hb
        · simp at hb; omega
        · split at hb
          · simp at hb; rcases hb with hb | hb | hb <;> omega
          · simp at hb; rcases hb with hb | hb | hb | hb <;> omega
    · exact ih b hb

/-- Modelled from the spec: the standard base64 alphabet used by the
reversible, opaque encoding that the synthesizer applies to the joined
components. -/
def b64Alphabet : List Char :=
  [ 'A', 'B', 'C', 'D', 'E', 'F', 'G', 'H', 'I', 'J', 'K', 'L', 'M',
    'N', 'O', 'P', 'Q', 'R', 'S', 'T', 'U', 'V', 'W', 'X', 'Y', 'Z',
    'a', 'b', 'c', 'd', 'e', 'f', 'g', 'h', 'i', 'j', 'k', 'l', 'm',
    'n', 'o', 'p', 'q', 'r', 's', 't', 'u', 'v', 'w', 'x', 'y', 'z',
    '0', '1', '2', '3', '4', '5', '6', '7', '8', '9', '+', '/' ]

/-- Modelled from the spec: the base64 digit for a sextet value. -/
def b64Char (i : Nat) : Char := b64Alphabet.getD i '?'

/-- The sextet value of a base64 digit, used to show the opaque encoding
is reversible. -/
def b64Val (c : Char) : Nat := b64Alphabet.indexOf c

/-- Modelled from the spec: base64 encoding of a byte list, in groups of
three bytes mapped to four digits, with '=' padding for short tails. -/
def base64Encode : List Nat → List Char
  | [] => []
  | [b1] => [b64Char (b1 / 4), b64Char (b1 % 4 * 16), '=', '=']
  | [b1, b2] => [b64Char (b1 / 4), b64Char (b1 % 4 * 16 + b2 / 16),
                 b64Char (b2 % 16 * 4), '=']
  | b1 :: b2 :: b3 :: rest =>
    b64Char (b1 / 4) :: b64Char (b1 % 4 * 16 + b2 / 16)
      :: b64Char (b2 % 16 * 4 + b3 / 64) :: b64Char (b3 % 64)
      :: base64Encode rest

/-- Base64 decoder, used to show the opaque encoding is reversible. -/
def base64Decode : List Char → Option (List Nat)
  | [] => some []
  | c1 :: c2 :: c3 :: c4 :: rest =>
    if c3 = '=' then
      if rest = [] ∧ c4 = '=' then some [b64Val c1 * 4 + b64Val c2 / 16]
      else none
    else if c4 = '=' then
      if rest = [] then
        some [b64Val c1 * 4 + b64Val c2 / 16, b64Val c2 % 16 * 16 + b64Val c3 / 4]
      else none
    else
      match base64Decode rest with
      | some bs =>
        some ((b64Val c1 * 4 + b64Val c2 / 16)
          :: (b64Val c2 % 16 * 16 + b64Val c3 / 4)
          :: (b64Val c3 % 4 * 64 + b64Val c4) :: bs)
      | none => none
  | _ => none

theorem b64Val_b64Char : ∀ i, i < 64 → b64Val (b64Char i) = i := by decide

theorem b64Char_ne_pad : ∀ i, i < 64 → b64Char i ≠ '=' := by decide

/-- Decoding inverts base64 encoding on byte lists. -/
theorem base64_roundtrip : ∀ bs : List Nat, (∀ b ∈ bs, b < 256) →
    base64Decode (base64Encode bs) = some bs := by
  intro bs
  match bs with
  | [] => intro _; rfl
  | [b1] =>
    intro h
    have hb1 : b1 < 256 := h b1 (by simp)
    have e1 : b64Val (b64Char (b1 / 4)) = b1 / 4 := b64Val_b64Char _ (by omega)
    have e2 : b64Val (b64Char (b1 % 4 * 16)) = b1 % 4 * 16 := b64Val_b64Char _ (by omega)
    simp [base64Encode, base64Decode, e1, e2]
    omega
  | [b1, b2] =>
    intro h
    have hb1 : b1 < 256 := h b1 (by simp)
    have hb2 : b2 < 256 := h b2 (by simp)
    have hne : b64Char (b2 % 16 * 4) ≠ '=' := b64Char_ne_pad _ (by omega)
    have e1 : b64Val (b64Char (b1 / 4)) = b1 / 4 := b64Val_b64Char _ (by omega)
    have e2 : b64Val (b64Char (b1 % 4 * 16 + b2 / 16)) = b1 % 4 * 16 + b2 / 16 :=
      b64Val_b64Char _ (by omega)
    have e3 : b64Val (b64Char (b2 % 16 * 4)) = b2 % 16 * 4 := b64Val_b64Char _ (by omega)
    simp [base64Encode, base64Decode, hne, e1, e2, e3]
    constructor
    · omega
    · omega
  | b1 :: b2 :: b3 :: rest =>
    intro h
    have hb1 : b1 < 256 := h b1 (by simp)
    have hb2 : b2 < 256 := h b2 (by simp)
    have hb3 : b3 < 256 := h b3 (by simp)
    have ih := base64_roundtrip rest (fun b hb => h b (by simp [hb]))
    have hne3 : b64Char (b2 % 16 * 4 + b3 / 64) ≠ '=' := b64Char_ne_pad _ (by omega)
    have hne4 : b64Char (b3 % 64) ≠ '=' := b64Char_ne_pad _ (by omega)
    have e1 : b64Val (b64Char (b1 / 4)) = b1 / 4 := b64Val_b64Char _ (by omega)
    have e2 : b64Val (b64Char (b1 % 4 * 16 + b2 / 16)) = b1 % 4 * 16 + b2 / 16 :=
      b64Val_b64Char _ (by omega)
    have e3 : b64Val (b64Char (b2 % 16 * 4 + b3 / 64)) = b2 % 16 * 4 + b3 / 64 :=
      b64Val_b64Char _ (by omega)
    have e4 : b64Val (b64Char (b3 % 64)) = b3 % 64 := b64Val_b64Char _ (by omega)
    simp [base64Encode, base64Decode, hne3, hne4, ih, e1, e2, e3, e4]
    refine ⟨by omega, by omega, by omega⟩

/-- Base64 encoding is injective on byte lists. -/
theorem base64Encode_injective (bs1 bs2 : List Nat)
    (h1 : ∀ b ∈ bs1, b < 256) (h2 : ∀ b ∈ bs2, b < 256)
    (h : base64Encode bs1 = base64Encode bs2) : bs1 = bs2 := by
  have r1 := base64_roundtrip bs1 h1
  have r2 := base64_roundtrip bs2 h2
  rw [h, r2] at r1
  exact (Option.some.inj r1).symm

/-- Modelled from the spec: the Canonical Identity Synthesizer, absent
from the repository source.  Per the spec contract it concatenates the
type name and the ordered natural-key values with the reserved separator,
escaping the separator inside components, and applies the reversible
opaque base64 encoding to the resulting byte stream.  It is a pure
function of its two arguments. -/
def synthesize (typeName : String) (keyValues : List String) : String :=
  String.mk (base64Encode (utf8Encode (joinEscaped
    (typeName.data :: keyValues.map String.data))))

theorem string_data_inj (s t : String) (h : s.data = t.data) : s = t := by
  cases s
  cases t
  exact congrArg String.mk h

theorem map_data_inj : ∀ l1 l2 : List String,
    l1.map String.data = l2.map String.data → l1 = l2 := by
  intro l1
  induction l1 with
  | nil =>
    intro l2 h
    cases l2 with
    | nil => rfl
    | cons y l3 => simp at h
  | cons x l1b ih =>
    intro l2 h
    cases l2 with
    | nil => simp at h
    | cons y l2b =>
      simp only [List.map_cons, List.cons.injEq] at h
      rw [string_data_inj x y h.1, ih l2b h.2]

/-- The synthesizer is injective: distinct inputs give distinct
CanonicalIDs. -/
theorem synthesize_inj (t t2 : String) (ks ks2 : List String)
    (h : synthesize t ks = synthesize t2 ks2) : t = t2 ∧ ks = ks2 := by
  unfold synthesize at h
  have hb : base64Encode (utf8Encode (joinEscaped (t.data :: ks.map String.data)))
      = base64Encode (utf8Encode (joinEscaped (t2.data :: ks2.map String.data))) :=
    congrArg String.data h
  have hu := base64Encode_injective _ _ (utf8Encode_lt_256 _) (utf8Encode_lt_256 _) hb
  have hj := utf8Encode_injective _ _ hu
  have hc := joinEscaped_injective _ _ (by simp) (by simp) hj
  simp only [List.cons.injEq] at hc
  exact ⟨string_data_inj _ _ hc.1, map_data_inj _ _ hc.2⟩

/-- Claim C1: the Canonical Identity Synthesizer is deterministic — two
calls of synthesize on the same (typeName, keyValues) input return
identical CanonicalID strings; the result is a pure function of the two
arguments alone, with no dependence on I/O or shared state. -/
theorem synthesize_deterministic (t t2 : String) (ks ks2 : List String)
    (ht : t = t2) (hk : ks = ks2) : synthesize t ks = synthesize t2 ks2 := by
  rw [ht, hk]

/-- Witness for claim C1 at a concrete input. -/
theorem synthesize_deterministic_witness :
    synthesize "Artifact" ["sha256", "f0e0"] = synthesize "Artifact" ["sha256", "f0e0"] :=
  synthesize_deterministic "Artifact" "Artifact" ["sha256", "f0e0"] ["sha256", "f0e0"]
    rfl rfl

/-- Claim C2: the synthesizer is collision-free — inputs differing in the
type name or in any key component (including empty components and
components containing the reserved separator) yield different
CanonicalIDs, because components are escaped before joining with the
reserved separator and the final encoding is reversible. -/
theorem synthesize_collision_free (t t2 : String) (ks ks2 : List String)
    (h : ¬(t = t2 ∧ ks = ks2)) : synthesize t ks ≠ synthesize t2 ks2 :=
  fun he => h (synthesize_inj t t2 ks ks2 he)

/-- Witness for claim C2: two adversarial near-duplicate inputs whose
components contain the separator character or are empty do not collide. -/
theorem synthesize_collision_free_witness :
    ¬("Package" = "Package" ∧ (["", ":"] : List String) = [":", ""]) ∧
      synthesize "Package" ["", ":"] ≠ synthesize "Package" [":", ""] :=
  ⟨by decide, synthesize_collision_free "Package" "Package" ["", ":"] [":", ""]
    (by decide)⟩

/- ## Graph-Exchange Serializer -/

/-- Modelled from the spec: the value of one field of an extracted record.
A scalar carries a literal value; a reference carries the referenced type
name and the referenced entity's natural-key values, which the spec says
are present in the current record and are fed back through the
synthesizer (never resolved by lookup). -/
inductive FieldVal where
  | scalar : String → FieldVal
  | ref : String → List String → FieldVal
deriving DecidableEq

/-- Modelled from the spec: a typed record yielded by the Extraction
Engine: its type name, its ordered natural-key values, and its fields. -/
structure SrcRecord where
  typeName : String
  keyValues : List String
  fields : List (String × FieldVal)
deriving DecidableEq

/-- Modelled from the spec: the object position of a GraphStatement is
either an object CanonicalID or a scalar value. -/
inductive StmtObj where
  | id : String → StmtObj
  | lit : String → StmtObj
deriving DecidableEq

/-- Modelled from the spec: a GraphStatement is a subject CanonicalID, a
predicate name, and an object. -/
structure GraphStatement where
  subject : String
  predicate : String
  object : StmtObj
deriving DecidableEq

/-- Modelled from the spec: the one statement the serializer emits for one
field of a record; a reference field's object CanonicalID is computed by
re-running the synthesizer on the referenced type and key values. -/
def fieldStmt (subj : String) (f : String × FieldVal) : GraphStatement :=
  match f.2 with
  | .scalar v => ⟨subj, f.1, .lit v⟩
  | .ref t kvs => ⟨subj, f.1, .id (synthesize t kvs)⟩

/-- Modelled from the spec: serialization of one record — one statement
per field, all rooted at the record's own CanonicalID. -/
def serializeRecord (r : SrcRecord) : List GraphStatement :=
  r.fields.map (fieldStmt (synthesize r.typeName r.keyValues))

/-- Modelled from the spec: the statements contributed by one stage of the
run, in record order. -/
def stageStmts (recs : List SrcRecord) : List GraphStatement :=
  recs.flatMap serializeRecord

/-- Modelled from the spec: the artifact statement stream of a run — the
Stage 1 (Node-type) statements followed by the Stage 2 (Edge-type)
statements. -/
def serializeRun (nodeRecs edgeRecs : List SrcRecord) : List GraphStatement :=
  stageStmts nodeRecs ++ stageStmts edgeRecs

/-- The reference targets mentioned by a record: for each reference field,
the referenced type name and key values. -/
def refTargets (r : SrcRecord) : List (String × List String) :=
  r.fields.filterMap (fun f =>
    match f.2 with
    | .ref t kvs => some (t, kvs)
    | .scalar _ => none)

/-- Claim C3: in any artifact produced by the serializer, all Node
statements precede all Edge statements, and every Edge statement's object
CanonicalID is the subject of a Node statement appearing strictly earlier
in the stream — provided each edge record's reference targets were
extracted as node records (with at least one field) in Stage 1. -/
theorem serializer_ordering (nodeRecs edgeRecs : List SrcRecord)
    (href : ∀ e ∈ edgeRecs, ∀ tk ∈ refTargets e, ∃ n ∈ nodeRecs,
      n.typeName = tk.1 ∧ n.keyValues = tk.2 ∧ n.fields ≠ []) :
    serializeRun nodeRecs edgeRecs = stageStmts nodeRecs ++ stageStmts edgeRecs ∧
    (∀ j, ∀ hj : j < (serializeRun nodeRecs edgeRecs).length,
      (stageStmts nodeRecs).length ≤ j → ∀ o,
      ((serializeRun nodeRecs edgeRecs).get ⟨j, hj⟩).object = StmtObj.id o →
      ∃ i, ∃ hi : i < (serializeRun nodeRecs edgeRecs).length,
        i < j ∧ i < (stageStmts nodeRecs).length ∧
        ((serializeRun nodeRecs edgeRecs).get ⟨i, hi⟩).subject = o) := by
  constructor
  · rfl
  · intro j hj hjn o hobj
    have hjsum : j < (stageStmts nodeRecs).length + (stageStmts edgeRecs).length := by
      simpa [serializeRun] using hj
    have hjlen : j - (stageStmts nodeRecs).length < (stageStmts edgeRecs).length := by
      omega
    have hget : (serializeRun nodeRecs edgeRecs).get ⟨j, hj⟩
        = (stageStmts edgeRecs).get ⟨j - (stageStmts nodeRecs).length, hjlen⟩ :=
      List.get_append_right (stageStmts nodeRecs) (stageStmts edgeRecs) hjn
    have hmem : (stageStmts edgeRecs).get ⟨j - (stageStmts nodeRecs).length, hjlen⟩
        ∈ stageStmts edgeRecs := List.get_mem _ _ _
    rw [hget] at hobj
    set s := (stageStmts edgeRecs).get ⟨j - (stageStmts nodeRecs).length, hjlen⟩ with hs
    rw [stageStmts, List.mem_flatMap] at hmem
    obtain ⟨e, he, hse⟩ := hmem
    rw [serializeRecord, List.mem_map] at hse
    obtain ⟨f, hf, hfs⟩ := hse
    match hfv : f.2 with
    | .scalar v =>
      exfalso
      rw [← hfs, fieldStmt, hfv] at hobj
      exact StmtObj.noConfusion hobj
    | .ref t kvs =>
      rw [← hfs, fieldStmt, hfv] at hobj
      have hoeq : o = synthesize t kvs := (StmtObj.id.inj hobj).symm
      have htk : (t, kvs) ∈ refTargets e := by
        rw [refTargets, List.mem_filterMap]
        exact ⟨f, hf, by rw [hfv]⟩
      obtain ⟨n, hn, hnt, hnk, hnf⟩ := href e he (t, kvs) htk
      obtain ⟨f0, hf0⟩ := List.exists_mem_of_ne_nil n.fields hnf
      have hstmt : fieldStmt (synthesize n.typeName n.keyValues) f0
          ∈ stageStmts nodeRecs := by
        rw [stageStmts, List.mem_flatMap]
        exact ⟨n, hn, by rw [serializeRecord, List.mem_map]; exact ⟨f0, hf0, rfl⟩⟩
      obtain ⟨⟨i, hilen⟩, hig⟩ := List.get_of_mem hstmt
      have hiart : i < (serializeRun nodeRecs edgeRecs).length := by
        rw [serializeRun, List.length_append]
        omega
      refine ⟨i, hiart, by omega, hilen, ?_⟩
      have : (serializeRun nodeRecs edgeRecs).get ⟨i, hiart⟩
          = (stageStmts nodeRecs).get ⟨i, hilen⟩ := List.get_append i hilen
      rw [this, hig]
      have hsubj : (fieldStmt (synthesize n.typeName n.keyValues) f0).subject
          = synthesize n.typeName n.keyValues := by
        rw [fieldStmt]
        match f0.2 with
        | .scalar v => rfl
        | .ref t2 k2 => rfl
      rw [hsubj, hnt, hnk, hoeq]

/-- A sample Stage 1 node record for exercising the serializer. -/
def sampleNodeRec : SrcRecord :=
  ⟨"Artifact", ["sha256", "f0e0"], [("algorithm", FieldVal.scalar "sha256")]⟩

/-- A sample Stage 2 edge record referencing the sample node record. -/
def sampleEdgeRec : SrcRecord :=
  ⟨"IsOccurrence", ["pkg1"], [("artifact", FieldVal.ref "Artifact" ["sha256", "f0e0"])]⟩

/-- Witness for claim C3 at a concrete one-node, one-edge run. -/
theorem serializer_ordering_witness :
    serializeRun [sampleNodeRec] [sampleEdgeRec]
        = stageStmts [sampleNodeRec] ++ stageStmts [sampleEdgeRec] ∧
    (∀ j, ∀ hj : j < (serializeRun [sampleNodeRec] [sampleEdgeRec]).length,
      (stageStmts [sampleNodeRec]).length ≤ j → ∀ o,
      ((serializeRun [sampleNodeRec] [sampleEdgeRec]).get ⟨j, hj⟩).object = StmtObj.id o →
      ∃ i, ∃ hi : i < (serializeRun [sampleNodeRec] [sampleEdgeRec]).length,
        i < j ∧ i < (stageStmts [sampleNodeRec]).length ∧
        ((serializeRun [sampleNodeRec] [sampleEdgeRec]).get ⟨i, hi⟩).subject = o) :=
  serializer_ordering [sampleNodeRec] [sampleEdgeRec] (by decide)

/- ## Load Orchestrator -/

/-- Modelled from the spec: the state of the target store — `empty`
(bulk path applies) or `populated` with its current CanonicalID-keyed
records (incremental path applies).  The Load Orchestrator itself is not
in the repository source; it is specified in section 4.5. -/
inductive TargetState where
  | empty : TargetState
  | populated : List (String × String) → TargetState
deriving DecidableEq

/-- Modelled from the spec: a CanonicalID-keyed upsert — the target's
uniqueness-index mechanism merges an entity whose CanonicalID already
exists instead of duplicating it; a new CanonicalID is appended. -/
def upsert (store : List (String × String)) (cid v : String) :
    List (String × String) :=
  if store.any (fun p => p.1 = cid) then
    store.map (fun p => if p.1 = cid then (cid, v) else p)
  else store ++ [(cid, v)]

/-- Modelled from the spec: the incremental path applies an artifact as a
sequence of CanonicalID-keyed upserts. -/
def applyArtifact (store : List (String × String))
    (art : List (String × String)) : List (String × String) :=
  art.foldl (fun st p => upsert st p.1 p.2) store

/-- Modelled from the spec: the Load Orchestrator's load operation —
bulk path from `empty`, incremental upsert path into a `populated`
target. -/
def load (art : List (String × String)) : TargetState → TargetState
  | .empty => .populated (applyArtifact [] art)
  | .populated store => .populated (applyArtifact store art)

/-- Modelled from the spec: the record count of the target store. -/
def recordCount : TargetState → Nat
  | .empty => 0
  | .populated store => store.length

/-- Whether the store already holds an entity with this CanonicalID. -/
def containsKey (store : List (String × String)) (cid : String) : Bool :=
  store.any (fun p => p.1 = cid)

theorem containsKey_upsert_self (store : List (String × String)) (cid v : String) :
    containsKey (upsert store cid v) cid = true := by
  rw [upsert]
  by_cases hmem : store.any (fun p => p.1 = cid)
  · rw [if_pos hmem]
    rw [List.any_eq_true] at hmem
    obtain ⟨p, hp, hpc⟩ := hmem
    simp only [decide_eq_true_eq] at hpc
    rw [containsKey, List.any_eq_true]
    refine ⟨(cid, v), List.mem_map.mpr ⟨p, hp, by rw [if_pos hpc]⟩, by simp⟩
  · rw [if_neg hmem]
    rw [containsKey, List.any_eq_true]
    exact ⟨(cid, v), by simp⟩

theorem containsKey_upsert_mono (store : List (String × String)) (cid v k : String)
    (h : containsKey store k = true) :
    containsKey (upsert store cid v) k = true := by
  rw [containsKey, List.any_eq_true] at h
  obtain ⟨p, hp, hpk⟩ := h
  simp only [decide_eq_true_eq] at hpk
  rw [upsert]
  by_cases hmem : store.any (fun p => p.1 = cid)
  · rw [if_pos hmem]
    rw [containsKey, List.any_eq_true]
    by_cases hpc : p.1 = cid
    · refine ⟨(cid, v), List.mem_map.mpr ⟨p, hp, by rw [if_pos hpc]⟩, ?_⟩
      simp only [decide_eq_true_eq]
      rw [← hpk, hpc]
    · exact ⟨p, List.mem_map.mpr ⟨p, hp, by rw [if_neg hpc]⟩, by simp [hpk]⟩
  · rw [if_neg hmem]
    rw [containsKey, List.any_eq_true]
    exact ⟨p, List.mem_append_left _ hp, by simp [hpk]⟩

theorem length_upsert_of_contains (store : List (String × String)) (cid v : String)
    (h : containsKey store cid = true) :
    (upsert store cid v).length = store.length := by
  rw [upsert, if_pos (by exact h), List.length_map]

theorem containsKey_applyArtifact_mono (art : List (String × String)) :
    ∀ store k, containsKey store k = true →
      containsKey (applyArtifact store art) k = true := by
  induction art with
  | nil => intro store k h; exact h
  | cons a rest ih =>
    intro store k h
    rw [applyArtifact, List.foldl_cons]
    exact ih (upsert store a.1 a.2) k (containsKey_upsert_mono store a.1 a.2 k h)

theorem containsKey_applyArtifact_self (art : List (String × String)) :
    ∀ store, ∀ a ∈ art, containsKey (applyArtifact store art) a.1 = true := by
  induction art with
  | nil => intro store a ha; simp at ha
  | cons b rest ih =>
    intro store a ha
    rw [applyArtifact, List.foldl_cons]
    rcases List.mem_cons.mp ha with ha | ha
    · subst ha
      exact containsKey_applyArtifact_mono rest (upsert store a.1 a.2) a.1
        (containsKey_upsert_self store a.1 a.2)
    · exact ih (upsert store b.1 b.2) a ha

theorem length_applyArtifact_of_all_contained (art : List (String × String)) :
    ∀ store, (∀ a ∈ art, containsKey store a.1 = true) →
      (applyArtifact store art).length = store.length := by
  induction art with
  | nil => intro store _; rfl
  | cons b rest ih =>
    intro store hall
    rw [applyArtifact, List.foldl_cons]
    have hb : containsKey store b.1 = true := hall b (by simp)
    have hlen := length_upsert_of_contains store b.1 b.2 hb
    rw [← applyArtifact]
    rw [ih (upsert store b.1 b.2) ?_, hlen]
    intro a ha
    exact containsKey_upsert_mono store b.1 b.2 a.1 (hall a (by simp [ha]))

/-- Claim C4: loading the same artifact twice into a Populated target
yields the same record count as loading it once — the second load only
performs CanonicalID-keyed upserts on entities that already exist, so it
merges instead of duplicating. -/
theorem load_idempotent_count (art : List (String × String))
    (store : List (String × String)) :
    recordCount (load art (load art (TargetState.populated store)))
      = recordCount (load art (TargetState.populated store)) := by
  simp only [load, recordCount]
  exact length_applyArtifact_of_all_contained art (applyArtifact store art)
    (fun a ha => containsKey_applyArtifact_self art store a ha)

/- ## Extraction Engine: retry, backoff, partial-failure isolation -/

/-- Modelled from the spec: the outcome of a single extraction request —
either success or a transient failure (network error or 5xx). -/
inductive ReqOutcome where
  | success : ReqOutcome
  | transient : ReqOutcome
deriving DecidableEq

/-- Modelled from the spec: the terminal status of one type's extraction. -/
inductive TypeStatus where
  | completed : TypeStatus
  | failed : TypeStatus
deriving DecidableEq

/-- The observable result of the bounded retry loop: whether it succeeded,
how many attempts it made, and the backoff delays it waited. -/
structure RetryResult where
  succeeded : Bool
  attempts : Nat
  delays : List Nat
deriving DecidableEq

/-- Modelled from the spec: the worker's retry loop for one request, absent
from the repository source.  Attempt i's outcome is given by the oracle;
a transient failure is retried after an exponential backoff delay
(base times 2 to the attempt index) while attempts remain. -/
def retryGo (oracle : Nat → ReqOutcome) (base : Nat) : Nat → Nat → RetryResult
  | _, 0 => ⟨false, 0, []⟩
  | i, rem + 1 =>
    match oracle i with
    | .success => ⟨true, 1, []⟩
    | .transient =>
      if rem = 0 then ⟨false, 1, []⟩
      else
        let r := retryGo oracle base (i + 1) rem
        ⟨r.succeeded, r.attempts + 1, base * 2 ^ i :: r.delays⟩

/-- Modelled from the spec: a request with a bounded attempt budget,
starting at attempt index zero. -/
def retryRequest (oracle : Nat → ReqOutcome) (base maxAttempts : Nat) : RetryResult :=
  retryGo oracle base 0 maxAttempts

/-- Modelled from the spec: a type's extraction is marked Failed exactly
when its request exhausts the bounded attempt count. -/
def workerStatus (oracle : Nat → ReqOutcome) (base maxAttempts : Nat) : TypeStatus :=
  if (retryRequest oracle base maxAttempts).succeeded then .completed else .failed

/-- Modelled from the spec: one extraction stage runs a worker per type;
each worker's outcome is recorded and processing continues with the next
type whether or not the previous one failed. -/
def runStage (oracle : String → Nat → ReqOutcome) (base maxA : Nat) :
    List String → List (String × TypeStatus)
  | [] => []
  | t :: rest =>
    (t, workerStatus (oracle t) base maxA) :: runStage oracle base maxA rest

theorem retryGo_attempts_le (oracle : Nat → ReqOutcome) (base : Nat) :
    ∀ rem i, (retryGo oracle base i rem).attempts ≤ rem := by
  intro rem
  induction rem with
  | zero => intro i; simp [retryGo]
  | succ rem2 ih =>
    intro i
    rw [retryGo]
    match oracle i with
    | .success => simp
    | .transient =>
      by_cases hr : rem2 = 0
      · rw [if_pos hr]; simp
      · rw [if_neg hr]
        simp only
        have := ih (i + 1)
        omega

theorem retryGo_attempts_pos (oracle : Nat → ReqOutcome) (base : Nat) :
    ∀ rem i, 0 < rem → 0 < (retryGo oracle base i rem).attempts := by
  intro rem i hrem
  match rem, hrem with
  | rem2 + 1, _ =>
    rw [retryGo]
    match oracle i with
    | .success => simp
    | .transient =>
      by_cases hr : rem2 = 0
      · rw [if_pos hr]; simp
      · rw [if_neg hr]; simp

theorem retryGo_delays_exponential (oracle : Nat → ReqOutcome) (base : Nat) :
    ∀ rem i, 0 < rem → (retryGo oracle base i rem).delays
      = (List.range ((retryGo oracle base i rem).attempts - 1)).map
          (fun k => base * 2 ^ (i + k)) := by
  intro rem
  induction rem with
  | zero => intro i h; omega
  | succ rem2 ih =>
    intro i _
    rw [retryGo]
    match oracle i with
    | .success => simp
    | .transient =>
      by_cases hr : rem2 = 0
      · rw [if_pos hr]; simp
      · rw [if_neg hr]
        simp only
        have hpos := retryGo_attempts_pos oracle base rem2 (i + 1) (by omega)
        have hihd := ih (i + 1) (by omega)
        have hsub : (retryGo oracle base (i + 1) rem2).attempts + 1 - 1
            = ((retryGo oracle base (i + 1) rem2).attempts - 1) + 1 := by omega
        rw [hsub, List.range_succ_eq_map, List.map_cons]
        have hzero : base * 2 ^ (i + 0) = base * 2 ^ i := by rw [Nat.add_zero]
        rw [hzero, List.map_map]
        have hfun : ((fun k => base * 2 ^ (i + k)) ∘ Nat.succ)
            = (fun k => base * 2 ^ (i + 1 + k)) := by
          funext k
          simp only [Function.comp]
          have harg : i + Nat.succ k = i + 1 + k := by omega
          rw [harg]
        rw [hfun, ← hihd]

theorem retryGo_succeeded_false_iff (oracle : Nat → ReqOutcome) (base : Nat) :
    ∀ rem i, (retryGo oracle base i rem).succeeded = false ↔
      ∀ k, i ≤ k → k < i + rem → oracle k = ReqOutcome.transient := by
  intro rem
  induction rem with
  | zero =>
    intro i
    simp only [retryGo]
    constructor
    · intro _ k hk1 hk2; omega
    · intro _; trivial
  | succ rem2 ih =>
    intro i
    rw [retryGo]
    match ho : oracle i with
    | .success =>
      simp only
      constructor
      · intro h; exact absurd h (by simp)
      · intro h
        have := h i (le_refl i) (by omega)
        rw [ho] at this
        exact ReqOutcome.noConfusion this
    | .transient =>
      by_cases hr : rem2 = 0
      · rw [if_pos hr]
        subst hr
        simp only
        constructor
        · intro _ k hk1 hk2
          have : k = i := by omega
          rw [this, ho]
        · intro _; trivial
      · rw [if_neg hr]
        simp only
        rw [ih (i + 1)]
        constructor
        · intro h k hk1 hk2
          by_cases hki : k = i
          · rw [hki, ho]
          · exact h k (by omega) (by omega)
        · intro h k hk1 hk2
          exact h k (by omega) (by omega)

theorem runStage_eq_map (oracle : String → Nat → ReqOutcome) (base maxA : Nat) :
    ∀ types, runStage oracle base maxA types
      = types.map (fun u => (u, workerStatus (oracle u) base maxA)) := by
  intro types
  induction types with
  | nil => rfl
  | cons t rest ih => rw [runStage, ih, List.map_cons]

/-- Claim C5: a worker retries transient failures with exponential backoff
(delay base times 2 to the attempt index) up to the bounded attempt count;
exhausting the attempts marks exactly that type's extraction Failed; every
sibling type still appears in the stage result with a status determined by
its own responses alone, so a failure never aborts sibling extraction. -/
theorem extraction_retry_isolation (types : List String)
    (oracle : String → Nat → ReqOutcome) (base maxA : Nat) (t : String)
    (ht : t ∈ types) :
    (retryRequest (oracle t) base maxA).attempts ≤ maxA ∧
    (0 < maxA → (retryRequest (oracle t) base maxA).delays
      = (List.range ((retryRequest (oracle t) base maxA).attempts - 1)).map
          (fun k => base * 2 ^ k)) ∧
    ((∀ k, k < maxA → oracle t k = ReqOutcome.transient) ↔
      workerStatus (oracle t) base maxA = TypeStatus.failed) ∧
    runStage oracle base maxA types
      = types.map (fun u => (u, workerStatus (oracle u) base maxA)) ∧
    (t, workerStatus (oracle t) base maxA) ∈ runStage oracle base maxA types := by
  refine ⟨retryGo_attempts_le (oracle t) base maxA 0, ?_, ?_, runStage_eq_map oracle base maxA types, ?_⟩
  · intro hpos
    have := retryGo_delays_exponential (oracle t) base maxA 0 hpos
    rw [retryRequest, this]
    have hfun : (fun k => base * 2 ^ (0 + k)) = (fun k => base * 2 ^ k) := by
      funext k
      rw [Nat.zero_add]
    rw [hfun]
  · rw [workerStatus]
    have hiff := retryGo_succeeded_false_iff (oracle t) base maxA 0
    constructor
    · intro h
      have hfalse : (retryRequest (oracle t) base maxA).succeeded = false := by
        rw [retryRequest]
        exact hiff.mpr (fun k hk1 hk2 => h k (by omega))
      rw [hfalse]
      simp
    · intro h
      by_cases hs : (retryRequest (oracle t) base maxA).succeeded
      · rw [if_pos hs] at h
        exact TypeStatus.noConfusion h
      · intro k hk
        have hfalse : (retryGo (oracle t) base 0 maxA).succeeded = false := by
          rw [← retryRequest]
          exact Bool.eq_false_iff.mpr hs
        exact hiff.mp hfalse k (by omega) (by omega)
  · rw [runStage_eq_map]
    exact List.mem_map.mpr ⟨t, ht, rfl⟩

/-- A sample oracle for the witness: the Vulnerability type always
receives a transient 500-class failure, every other type succeeds. -/
def sampleOracle : String → Nat → ReqOutcome :=
  fun t _ => if t = "Vulnerability" then ReqOutcome.transient else ReqOutcome.success

/-- Witness for claim C5: with three attempts against a persistently
failing Vulnerability type, the bound, the backoff shape, the Failed
marking, and sibling isolation all hold concretely. -/
theorem extraction_retry_isolation_witness :
    (retryRequest (sampleOracle "Vulnerability") 1 3).attempts ≤ 3 ∧
    (0 < 3 → (retryRequest (sampleOracle "Vulnerability") 1 3).delays
      = (List.range ((retryRequest (sampleOracle "Vulnerability") 1 3).attempts - 1)).map
          (fun k => 1 * 2 ^ k)) ∧
    ((∀ k, k < 3 → sampleOracle "Vulnerability" k = ReqOutcome.transient) ↔
      workerStatus (sampleOracle "Vulnerability") 1 3 = TypeStatus.failed) ∧
    runStage sampleOracle 1 3 ["Vulnerability", "Artifact"]
      = (["Vulnerability", "Artifact"] : List String).map
          (fun u => (u, workerStatus (sampleOracle u) 1 3)) ∧
    ("Vulnerability", workerStatus (sampleOracle "Vulnerability") 1 3)
      ∈ runStage sampleOracle 1 3 ["Vulnerability", "Artifact"] :=
  extraction_retry_isolation ["Vulnerability", "Artifact"] sampleOracle 1 3
    "Vulnerability" (by decide)

/- ## Extraction Engine: cursor-based pagination -/

/-- Modelled from the spec: one page returned by a pre-defined paginated
list query — the records, the opaque next-page token, and whether the
source reports the type exhausted. -/
structure Page where
  records : List String
  nextCursor : String
  exhausted : Bool

/-- Modelled from the spec: the cursor chain of a source — the cursor
used by call k, each subsequent cursor being exactly the opaque
nextCursor returned by the previous call (never an offset). -/
def cursorChain (api : String → Page) (c0 : String) : Nat → String
  | 0 => c0
  | k + 1 => (api (cursorChain api c0 k)).nextCursor

/-- Modelled from the spec: the extraction loop for one type, absent from
the repository source.  Starting from the initial cursor it repeatedly
calls the source API, accumulating records and recording the cursor each
call was made with, until the source reports the type exhausted (the fuel
bounds the loop but is not reached when the source exhausts first).
Returns (records, cursors used). -/
def extractLoop (api : String → Page) : Nat → String → List String × List String
  | 0, _ => ([], [])
  | fuel + 1, cursor =>
    let p := api cursor
    if p.exhausted then (p.records, [cursor])
    else
      let rest := extractLoop api fuel p.nextCursor
      (p.records ++ rest.1, cursor :: rest.2)

theorem cursorChain_shift (api : String → Page) (c0 : String) :
    ∀ k, cursorChain api c0 (k + 1)
      = cursorChain api (api c0).nextCursor k := by
  intro k
  induction k with
  | zero => rfl
  | succ k2 ih => rw [cursorChain, ih, cursorChain]

/-- Claim C6: extraction of a type is cursor-based — starting from the
initial cursor the loop calls the source once per page, each call's cursor
being exactly the previous call's opaque nextCursor, and it stops exactly
at the first page the source reports exhausted, having accumulated every
page's records in order. -/
theorem extraction_cursor_paginated (api : String → Page) (c0 : String) (n fuel : Nat)
    (hbefore : ∀ k, k < n → (api (cursorChain api c0 k)).exhausted = false)
    (hlast : (api (cursorChain api c0 n)).exhausted = true)
    (hfuel : n < fuel) :
    extractLoop api fuel c0
      = ((List.range (n + 1)).flatMap (fun k => (api (cursorChain api c0 k)).records),
         (List.range (n + 1)).map (cursorChain api c0)) := by
  induction n generalizing c0 fuel with
  | zero =>
    match fuel, hfuel with
    | f + 1, _ =>
      rw [extractLoop]
      simp only
      have h0 : (api c0).exhausted = true := hlast
      rw [if_pos h0]
      have hr1 : List.range (0 + 1) = [0] := rfl
      rw [hr1, List.flatMap_cons, List.flatMap_nil, List.append_nil,
          List.map_cons, List.map_nil]
      rfl
  | succ n2 ih =>
    match fuel, hfuel with
    | f + 1, _ =>
      rw [extractLoop]
      simp only
      have h0 : (api c0).exhausted = false := hbefore 0 (by omega)
      rw [if_neg (by rw [h0]; exact Bool.false_ne_true)]
      have hshift : ∀ k, cursorChain api c0 (k + 1)
          = cursorChain api (api c0).nextCursor k := cursorChain_shift api c0
      have hrec := ih (api c0).nextCursor f
        (fun k hk => by rw [← hshift k]; exact hbefore (k + 1) (by omega))
        (by rw [← hshift n2]; exact hlast)
        (by omega)
      rw [hrec]
      simp only
      rw [Prod.mk.injEq]
      refine ⟨?_, ?_⟩
      · conv_rhs => rw [List.range_succ_eq_map, List.flatMap_cons, List.flatMap_map]
        congr 1
        congr 1
        funext k
        rw [← hshift k]
      · conv_rhs => rw [List.range_succ_eq_map, List.map_cons, List.map_map]
        congr 1
        congr 1
        funext k
        simp only [Function.comp]
        rw [← hshift k]

/-- A two-page sample source for exercising the pagination loop. -/
def sampleApi : String → Page :=
  fun c => if c = "" then ⟨["r1", "r2"], "cursor1", false⟩ else ⟨["r3"], "", true⟩

/-- Witness for claim C6: a source that exhausts on its second page is
drained in exactly two cursor-chained calls. -/
theorem extraction_cursor_paginated_witness :
    extractLoop sampleApi 2 ""
      = ((List.range (1 + 1)).flatMap
           (fun k => (sampleApi (cursorChain sampleApi "" k)).records),
         (List.range (1 + 1)).map (cursorChain sampleApi "")) :=
  extraction_cursor_paginated sampleApi "" 1 2 (by decide) (by decide) (by decide)

/- ## Schema Model acquisition -/

/-- Modelled from the spec: the in-memory schema model; for acquisition
only its identity matters, so it is left abstract as a named document. -/
structure SchemaModel where
  doc : String
deriving DecidableEq

/-- Modelled from the spec: the acquire contract — live introspection is
tried first; when introspection fails or is disabled, the supplied static
schema file is used; when neither yields a schema, acquisition fails
fatally. -/
def acquire (introspectionEnabled : Bool) (introspection : Option SchemaModel)
    (fallbackFile : Option SchemaModel) : Except String SchemaModel :=
  match (if introspectionEnabled then introspection else none) with
  | some s => .ok s
  | none =>
    match fallbackFile with
    | some s => .ok s
    | none => .error "schema unavailable from both introspection and fallback"

/-- Modelled from the spec: a run first acquires the schema and only then
extracts; a fatal acquisition error aborts before any extraction starts.
The second component is the list of types for which extraction work was
performed. -/
def runWithSchema (introspectionEnabled : Bool) (introspection : Option SchemaModel)
    (fallbackFile : Option SchemaModel)
    (typesOf : SchemaModel → List String)
    (oracle : String → Nat → ReqOutcome) (base maxA : Nat) :
    Except String (List (String × TypeStatus)) × List String :=
  match acquire introspectionEnabled introspection fallbackFile with
  | .error e => (.error e, [])
  | .ok schema => (.ok (runStage oracle base maxA (typesOf schema)), typesOf schema)

/-- Claim C7: acquire prefers live introspection, falls back to the static
schema file when introspection fails or is disabled, and fails fatally —
with the run performing no extraction at all — exactly when neither
source yields a schema. -/
theorem acquire_fallback_fatal (enabled : Bool) (intro fb : Option SchemaModel)
    (typesOf : SchemaModel → List String)
    (oracle : String → Nat → ReqOutcome) (base maxA : Nat) :
    (∀ s, enabled = true → intro = some s → acquire enabled intro fb = .ok s) ∧
    (∀ s, (enabled = false ∨ intro = none) → fb = some s →
      acquire enabled intro fb = .ok s) ∧
    ((∃ e, acquire enabled intro fb = .error e) ↔
      ((enabled = false ∨ intro = none) ∧ fb = none)) ∧
    (∀ e, acquire enabled intro fb = .error e →
      (runWithSchema enabled intro fb typesOf oracle base maxA).2 = []) := by
  refine ⟨?_, ?_, ?_, ?_⟩
  · intro s he hi
    subst he hi
    rfl
  · intro s hd hf
    subst hf
    rcases hd with hd | hd
    · subst hd
      rfl
    · subst hd
      cases enabled <;> rfl
  · constructor
    · rintro ⟨e, he⟩
      cases enabled with
      | false =>
        cases fb with
        | some s => exact absurd he (by simp [acquire])
        | none => exact ⟨Or.inl rfl, rfl⟩
      | true =>
        cases intro with
        | some s => exact absurd he (by simp [acquire])
        | none =>
          cases fb with
          | some s => exact absurd he (by simp [acquire])
          | none => exact ⟨Or.inr rfl, rfl⟩
    · rintro ⟨hd, hf⟩
      subst hf
      rcases hd with hd | hd
      · subst hd
        exact ⟨_, rfl⟩
      · subst hd
        cases enabled <;> exact ⟨_, rfl⟩
  · intro e he
    rw [runWithSchema]
    rw [he]

/-- Witness for claim C7: with introspection disabled and no fallback
file, acquisition fails and the run touches no type. -/
theorem acquire_fallback_fatal_witness :
    (∀ s, false = true → (none : Option SchemaModel) = some s →
      acquire false none none = .ok s) ∧
    (∀ s, (false = false ∨ (none : Option SchemaModel) = none) →
      (none : Option SchemaModel) = some s → acquire false none none = .ok s) ∧
    ((∃ e, acquire false none none = .error e) ↔
      ((false = false ∨ (none : Option SchemaModel) = none) ∧
        (none : Option SchemaModel) = none)) ∧
    (∀ e, acquire false none none = .error e →
      (runWithSchema false none none (fun _ => ["Artifact"]) sampleOracle 1 3).2
        = []) :=
  acquire_fallback_fatal false none none (fun _ => ["Artifact"]) sampleOracle 1 3

/- ## Two-stage concurrency barrier -/

/-- Modelled from the spec: the scheduler state of a run — the Stage 1
(Node-type) workers that have not yet reported, the reports received
(completion or terminal failure), and the Stage 2 (Edge-type) work items
that have begun. -/
structure RunState where
  s1pending : List String
  s1reported : List (String × TypeStatus)
  s2started : List String
deriving DecidableEq

/-- Modelled from the spec: one scheduler transition.  A Stage 1 worker
may report completion or terminal failure at any time; Stage 2 work on an
Edge type may begin only when no Stage 1 worker is still pending — the
barrier is a rendezvous that waits for all workers, failed or
succeeded. -/
inductive SchedStep (edgeTypes : List String) : RunState → RunState → Prop where
  | report (s : RunState) (t : String) (st : TypeStatus) (ht : t ∈ s.s1pending) :
      SchedStep edgeTypes s
        ⟨s.s1pending.erase t, (t, st) :: s.s1reported, s.s2started⟩
  | beginEdge (s : RunState) (t : String) (ht : t ∈ edgeTypes)
      (hbar : s.s1pending = []) :
      SchedStep edgeTypes s ⟨s.s1pending, s.s1reported, t :: s.s2started⟩

/-- Reachability under the scheduler's transition relation. -/
inductive SchedReaches (edgeTypes : List String) : RunState → RunState → Prop where
  | refl (s : RunState) : SchedReaches edgeTypes s s
  | tail (s1 s2 s3 : RunState) : SchedReaches edgeTypes s1 s2 →
      SchedStep edgeTypes s2 s3 → SchedReaches edgeTypes s1 s3

/-- Modelled from the spec: the initial state of a run — every Node type
pending, nothing reported, no Stage 2 work begun. -/
def initState (nodeTypes : List String) : RunState := ⟨nodeTypes, [], []⟩

theorem sched_invariant (nodeTypes edgeTypes : List String) :
    ∀ s, SchedReaches edgeTypes (initState nodeTypes) s →
      (s.s2started ≠ [] → s.s1pending = []) ∧
      (∀ t ∈ nodeTypes, t ∈ s.s1pending ∨ ∃ st, (t, st) ∈ s.s1reported) := by
  intro s hreach
  induction hreach with
  | refl =>
    refine ⟨fun h => absurd rfl h, fun t ht => Or.inl ht⟩
  | tail s2 s3 _ hstep ih =>
    cases hstep with
    | report t st ht =>
      refine ⟨?_, ?_⟩
      · intro h2
        have hp : s2.s1pending = [] := ih.1 h2
        simp only [hp, List.erase_nil]
      · intro u hu
        rcases ih.2 u hu with hup | ⟨st2, hur⟩
        · by_cases hut : u = t
          · exact Or.inr ⟨st, by rw [hut]; exact List.mem_cons_self _ _⟩
          · exact Or.inl ((List.mem_erase_of_ne hut).mpr hup)
        · exact Or.inr ⟨st2, List.mem_cons_of_mem _ hur⟩
    | beginEdge t ht hbar =>
      refine ⟨fun _ => hbar, ?_⟩
      · intro u hu
        rcases ih.2 u hu with hup | ⟨st2, hur⟩
        · rw [hbar] at hup
          exact absurd hup (List.not_mem_nil u)
        · exact Or.inr ⟨st2, hur⟩

/-- Claim C8: in every run, once any Stage 2 (Edge-type) work has begun,
no Stage 1 (Node-type) worker is still pending and every Node type has
reported either completion or terminal failure — the barrier waits for
all Stage 1 workers, failed or succeeded, before releasing Stage 2. -/
theorem stage_barrier (nodeTypes edgeTypes : List String) (s : RunState)
    (hreach : SchedReaches edgeTypes (initState nodeTypes) s)
    (hstarted : s.s2started ≠ []) :
    s.s1pending = [] ∧ ∀ t ∈ nodeTypes, ∃ st, (t, st) ∈ s.s1reported := by
  have hinv := sched_invariant nodeTypes edgeTypes s hreach
  have hp := hinv.1 hstarted
  refine ⟨hp, fun t ht => ?_⟩
  rcases hinv.2 t ht with hpend | h
  · rw [hp] at hpend
    exact absurd hpend (List.not_mem_nil t)
  · exact h

/-- Witness for claim C8: a run with one Node type that fails and one Edge
type; after the failure report the barrier opens and Stage 2 begins. -/
theorem stage_barrier_witness :
    (⟨[], [("N", TypeStatus.failed)], ["E"]⟩ : RunState).s1pending = [] ∧
    ∀ t ∈ ["N"], ∃ st, (t, st)
      ∈ (⟨[], [("N", TypeStatus.failed)], ["E"]⟩ : RunState).s1reported :=
  stage_barrier ["N"] ["E"] ⟨[], [("N", TypeStatus.failed)], ["E"]⟩
    (SchedReaches.tail _ _ _
      (SchedReaches.tail _ _ _ (SchedReaches.refl _)
        (SchedStep.report ⟨["N"], [], []⟩ "N" TypeStatus.failed (by decide)))
      (SchedStep.beginEdge ⟨["N"].erase "N", [("N", TypeStatus.failed)], []⟩ "E"
        (by decide) (by decide)))
    (by decide)

/- ## Environment validation script (scripts/validate.sh) -/

/-- The environment the script probes: whether `nc -z host port` succeeds
for a TCP port, and whether the `curl --fail` GraphQL health POST
succeeds for a URL. -/
structure ValidateEnv where
  portUp : String → Nat → Bool
  graphqlOk : String → Bool

/-- The script's mutable SUCCESS flag (0 initially, set to 1 by any
failing check). -/
structure ScriptState where
  success : Nat
deriving DecidableEq

/-- Embedding of check_port from scripts/validate.sh: on a closed port the
SUCCESS flag is set to 1, otherwise the state is unchanged. -/
def check_port (env : ValidateEnv) (host : String) (port : Nat)
    (st : ScriptState) : ScriptState :=
  if env.portUp host port then st else { success := 1 }

/-- Embedding of check_graphql_health from scripts/validate.sh: on a
failing POST the SUCCESS flag is set to 1, otherwise the state is
unchanged. -/
def check_graphql_health (env : ValidateEnv) (url : String)
    (st : ScriptState) : ScriptState :=
  if env.graphqlOk url then st else { success := 1 }

/-- The observable outcome of one run of the script: its exit status, the
final SUCCESS flag, and whether the `make status` diagnostic ran. -/
structure ValidateOutcome where
  exitCode : Nat
  finalSuccess : Nat
  ranMakeStatus : Bool
deriving DecidableEq

/-- Embedding of the main validation logic of scripts/validate.sh: the
five port checks, then the three GraphQL health checks, then exit 0 on a
clean SUCCESS flag or run `make status` and exit 1 otherwise. -/
def validate (env : ValidateEnv) : ValidateOutcome :=
  let st0 : ScriptState := { success := 0 }
  let st1 := check_port env "localhost" 8080 st0
  let st2 := check_port env "localhost" 4000 st1
  let st3 := check_port env "localhost" 8081 st2
  let st4 := check_port env "localhost" 9081 st3
  let st5 := check_port env "localhost" 8001 st4
  let st6 := check_graphql_health env "http://localhost:8080/query" st5
  let st7 := check_graphql_health env "http://localhost:4000/graphql" st6
  let st8 := check_graphql_health env "http://localhost:8081/graphql" st7
  if st8.success = 0 then
    { exitCode := 0, finalSuccess := st8.success, ranMakeStatus := false }
  else
    { exitCode := 1, finalSuccess := st8.success, ranMakeStatus := true }

/-- All eight checks of the script pass in this environment. -/
def allChecksPass (env : ValidateEnv) : Bool :=
  env.portUp "localhost" 8080 && env.portUp "localhost" 4000 &&
  env.portUp "localhost" 8081 && env.portUp "localhost" 9081 &&
  env.portUp "localhost" 8001 && env.graphqlOk "http://localhost:8080/query" &&
  env.graphqlOk "http://localhost:4000/graphql" &&
  env.graphqlOk "http://localhost:8081/graphql"

/-- Claim C9: the validation script exits 0 exactly when all five port
checks and all three GraphQL health checks succeed; any failing check
drives the SUCCESS flag to 1, and then the script runs the `make status`
diagnostic and exits 1. -/
theorem validate_exit_iff (env : ValidateEnv) :
    ((validate env).exitCode = 0 ↔ allChecksPass env = true) ∧
    (allChecksPass env = false →
      (validate env).finalSuccess = 1 ∧ (validate env).exitCode = 1 ∧
      (validate env).ranMakeStatus = true) ∧
    ((validate env).exitCode = 0 ∨ (validate env).exitCode = 1) := by
  obtain ⟨pu, gq⟩ := env
  by_cases h1 : pu "localhost" 8080 = true <;>
    by_cases h2 : pu "localhost" 4000 = true <;>
    by_cases h3 : pu "localhost" 8081 = true <;>
    by_cases h4 : pu "localhost" 9081 = true <;>
    by_cases h5 : pu "localhost" 8001 = true <;>
    by_cases h6 : gq "http://localhost:8080/query" = true <;>
    by_cases h7 : gq "http://localhost:4000/graphql" = true <;>
    by_cases h8 : gq "http://localhost:8081/graphql" = true <;>
    simp [validate, check_port, check_graphql_health, allChecksPass,
      h1, h2, h3, h4, h5, h6, h7, h8]

/-- A sample environment in which the Mesh port 4000 is down and all other
checks pass. -/
def sampleEnv : ValidateEnv :=
  ⟨fun _ port => port != 4000, fun _ => true⟩

/-- Witness for claim C9 at a concrete environment with one failing port
check. -/
theorem validate_exit_iff_witness :
    ((validate sampleEnv).exitCode = 0 ↔ allChecksPass sampleEnv = true) ∧
    (allChecksPass sampleEnv = false →
      (validate sampleEnv).finalSuccess = 1 ∧ (validate sampleEnv).exitCode = 1 ∧
      (validate sampleEnv).ranMakeStatus = true) ∧
    ((validate sampleEnv).exitCode = 0 ∨ (validate sampleEnv).exitCode = 1) :=
  validate_exit_iff sampleEnv
